import Mathlib

/-!
Shallow embedding of the logical-clocks library (a Lamport scalar clock and
a vector clock over identifier-indexed counter maps), together with proofs
of the specified properties.

Conventions of the embedding:
* an `Identifier` (a Rust `Vec<u8>`) is a `List Nat` of byte values; its
  derived total order is lexicographic, as for Rust byte vectors;
* `u64` counters are `Nat` together with explicit reduction `% U64` at the
  spots where the Rust code performs `u64` arithmetic (`fetch_add`, `+ 1`,
  `+= 1`); release-build wrapping semantics are modelled;
* a `HashMap<Identifier, u64>` is an association list `List (Ident × Nat)`
  whose well-formedness predicate `WF` states the keys are duplicate-free
  (true of every real `HashMap`); lookups default to `0` exactly where the
  code calls `unwrap_or(&0)` or `or_insert(0)`;
* the atomic operations of `LamportClock` are given their single-threaded
  functional meaning: the compare-and-swap in `compare` succeeds on the
  first attempt, as it always does without interference.
-/

set_option autoImplicit false

namespace LogicalClocks

/-- Byte-sequence process identifier, modelling `Identifier(pub Vec<u8>)`. -/
abbrev Ident := List Nat

/-- Modulus of unsigned 64-bit arithmetic, written as a literal. -/
def U64 : Nat := 18446744073709551616

/-- Lexicographic three-way comparison of byte sequences, modelling the
derived `Ord` of `Identifier` (the order of Rust `Vec<u8>`). -/
def bytesCmp : Ident → Ident → Ordering
  | [], [] => .eq
  | [], _ :: _ => .lt
  | _ :: _, [] => .gt
  | a :: xs, b :: ys =>
    if a < b then .lt else if b < a then .gt else bytesCmp xs ys

/-- Spec-side strict lexicographic order on byte sequences, written directly
from the words of the specification (byte-lexicographic, a proper prefix is
smaller). -/
def lexLt : Ident → Ident → Prop
  | [], [] => False
  | [], _ :: _ => True
  | _ :: _, [] => False
  | a :: xs, b :: ys => a < b ∨ (a = b ∧ lexLt xs ys)

/-- Snapshot of a scalar clock: `LamportTime(pub u64, pub Identifier)`. -/
structure LamportTime where
  counter : Nat
  owner : Ident
deriving DecidableEq, Repr

/-- Three-way comparison of naturals, standing for `u64::cmp`. -/
def natCmp (a b : Nat) : Ordering :=
  if a < b then .lt else if b < a then .gt else .eq

/-- Total order on Lamport times: counter first, owner as tie-break,
modelling the `Ord` instance of `LamportTime`. -/
def ltimeCmp (x y : LamportTime) : Ordering :=
  match natCmp x.counter y.counter with
  | .eq => bytesCmp x.owner y.owner
  | o => o

/-- Boolean `x <= y` on Lamport times, as derived from `Ord` in Rust. -/
def ltimeLe (x y : LamportTime) : Bool :=
  match ltimeCmp x y with
  | .gt => false
  | _ => true

/-- Spec-side strict order on Lamport times: remote strictly dominates local
when its counter is larger, or the counters tie and its owner is
lexicographically larger. -/
def specGT (r l : LamportTime) : Prop :=
  l.counter < r.counter ∨ (l.counter = r.counter ∧ lexLt l.owner r.owner)

/-- Scalar clock state: `LamportClock { counter: AtomicU64, id: Identifier }`. -/
structure LamportClock where
  counter : Nat
  id : Ident
deriving DecidableEq, Repr

namespace LamportClock

/-- Read of the current snapshot (`LamportClock::time`). -/
def time (c : LamportClock) : LamportTime :=
  ⟨c.counter, c.id⟩

/-- Atomic increment (`LamportClock::increment`): `fetch_add(1)` wraps at
the `u64` boundary; the returned snapshot carries the new value. -/
def increment (c : LamportClock) : LamportClock × LamportTime :=
  let newCounter := (c.counter + 1) % U64
  (⟨newCounter, c.id⟩, ⟨newCounter, c.id⟩)

/-- Witnessing a remote time (`LamportClock::compare`), single-threaded: if
the remote time is `<=` the locally read time, do nothing; otherwise the
compare-and-swap (which cannot fail without interference) stores
`other.counter + 1`, a wrapping `u64` sum. -/
def compare (c : LamportClock) (other : LamportTime) : LamportClock :=
  if ltimeLe other c.time then c
  else ⟨(other.counter + 1) % U64, c.id⟩

/-- Big-endian base-256 digits of `n`, `w` bytes wide, most significant
first: the layout of `u64::to_be_bytes` when `w = 8` and `n < U64`. -/
def natToBytesBE : Nat → Nat → List Nat
  | 0, _ => []
  | w + 1, n => natToBytesBE w (n / 256) ++ [n % 256]

/-- Big-endian read of a byte list, the layout of `u64::from_be_bytes`. -/
def natFromBytesBE (l : List Nat) : Nat :=
  l.foldl (fun acc b => acc * 256 + b) 0

/-- Serialization (`LamportClock::to_bytes`): 8 big-endian counter bytes
followed by the raw owner identifier bytes. -/
def to_bytes (c : LamportClock) : List Nat :=
  natToBytesBE 8 c.counter ++ c.id

/-- Deserialization (`LamportClock::from_bytes`): fails on fewer than 8
bytes, otherwise reads a big-endian counter from the first 8 bytes and
takes whatever remains as the identifier. -/
def from_bytes (data : List Nat) : Option LamportClock :=
  if data.length < 8 then none
  else some ⟨natFromBytesBE (data.take 8), data.drop 8⟩

end LamportClock

/-- Association-list model of `HashMap<Identifier, u64>`. -/
abbrev VMap := List (Ident × Nat)

/-- Lookup defaulting to zero: `map.get(k).unwrap_or(&0)`. -/
def getD : VMap → Ident → Nat
  | [], _ => 0
  | (i, v) :: rest, k => if i = k then v else getD rest k

/-- Key membership: `map.contains_key(k)`. -/
def hasKeyB : VMap → Ident → Bool
  | [], _ => false
  | (i, _) :: rest, k => i = k || hasKeyB rest k

/-- Key list of a map. -/
def keysOf (m : VMap) : List Ident :=
  m.map Prod.fst

/-- Well-formedness: a `HashMap` never holds two entries for one key. -/
def WF (m : VMap) : Prop :=
  (keysOf m).Nodup

instance (m : VMap) : Decidable (WF m) :=
  inferInstanceAs (Decidable ((keysOf m).Nodup))

/-- Rewrite the value stored at a present key, leaving the rest alone. -/
def updateEntry : VMap → Ident → (Nat → Nat) → VMap
  | [], _, _ => []
  | (i, v) :: rest, k, f =>
    if i = k then (i, f v) :: updateEntry rest k f
    else (i, v) :: updateEntry rest k f

/-- Model of `map.entry(k).or_insert(0)`: materialize the key at `0` when
absent (a `HashMap` appends somewhere unspecified; the list order of the
model never matters through `getD`/`hasKeyB`). -/
def entryOrInsert (m : VMap) (k : Ident) : VMap :=
  if hasKeyB m k then m else m ++ [(k, 0)]

namespace VClock

/-- Local tick (`VClock::increment`): `entry(id).or_insert(0)` then a
wrapping `u64` `+= 1`. -/
def increment (m : VMap) (id : Ident) : VMap :=
  updateEntry (entryOrInsert m id) id (fun v => (v + 1) % U64)

/-- One step of `VClock::merge`: `entry(node).or_insert(0)` then
`*entry = (*entry).max(counter)`. -/
def mergeEntry (m : VMap) (id : Ident) (c : Nat) : VMap :=
  updateEntry (entryOrInsert m id) id (fun v => Nat.max v c)

/-- Merge of another clock (`VClock::merge`): fold `mergeEntry` over the
entries of the other map. -/
def merge (m other : VMap) : VMap :=
  other.foldl (fun acc p => mergeEntry acc p.1 p.2) m

/-- Causality test (`VClock::happened_before`): scan the entries of `self`
returning `false` at the first entry exceeding the other clock, otherwise
report whether some entry of either side witnesses strict growth. -/
def happened_before (a b : VMap) : Bool :=
  if a.any (fun p => decide (getD b p.1 < p.2)) then false
  else a.any (fun p => decide (p.2 < getD b p.1))
    || b.any (fun p => decide (getD a p.1 < p.2))

end VClock

/-- Flag `is_less` of the three-way comparison: some key of the union has a
strictly smaller counter on the left. -/
def lessFlag (a b : VMap) : Bool :=
  (keysOf a ++ keysOf b).any fun k => decide (getD a k < getD b k)

/-- Flag `is_greater` of the three-way comparison. -/
def greaterFlag (a b : VMap) : Bool :=
  (keysOf a ++ keysOf b).any fun k => decide (getD b k < getD a k)

/-- Three-way partial-order comparison of two snapshots, modelling
`PartialOrd for VClockTime`: both flags are accumulated over the union of
keys (the early `return None` of the loop body only short-circuits the
computation of an already-determined answer) and the result is read off the
flag pair; `none` stands for `Concurrent`. -/
def vclockCmp (a b : VMap) : Option Ordering :=
  match lessFlag a b, greaterFlag a b with
  | true, true => none
  | true, false => some .lt
  | false, true => some .gt
  | false, false => some .eq

/-- Model of `Vector::add`: `self.data.insert(id, 0)`, an insert-or-replace
with value `0` used to seed known nodes before the first increment. -/
def Vector.add (m : VMap) (id : Ident) : VMap :=
  if hasKeyB m id then updateEntry m id (fun _ => 0) else m ++ [(id, 0)]

/-- Extension of a snapshot by zero-valued entries for the identifiers of
`S` that it does not already hold, the map produced by seeding fresh
known nodes through `Vector::add`. -/
def extendZeros (m : VMap) (S : List Ident) : VMap :=
  S.foldl (fun acc id => if hasKeyB acc id then acc else acc ++ [(id, 0)]) m

/-- Extensional equality of two maps as `HashMap` values: the same keys are
present and every lookup agrees. -/
def MapEq (a b : VMap) : Prop :=
  (∀ k, hasKeyB a k = hasKeyB b k) ∧ (∀ k, getD a k = getD b k)

/-! Basic lemmas about the association-list map model. -/

theorem hasKeyB_iff_mem {m : VMap} {k : Ident} :
    hasKeyB m k = true ↔ k ∈ keysOf m := by
  induction m with
  | nil => simp [hasKeyB, keysOf]
  | cons p rest ih =>
    obtain ⟨i, v⟩ := p
    by_cases h : i = k
    · subst h
      simp [hasKeyB, keysOf]
    · have hki : k ≠ i := fun hc => h hc.symm
      simp [hasKeyB, keysOf, h, hki, ih]

theorem getD_eq_zero_of_hasKeyB_false {m : VMap} {k : Ident}
    (h : hasKeyB m k = false) : getD m k = 0 := by
  induction m with
  | nil => rfl
  | cons p rest ih =>
    obtain ⟨i, v⟩ := p
    by_cases hik : i = k
    · simp [hasKeyB, hik] at h
    · simp only [hasKeyB, Bool.or_eq_false_iff] at h
      simp [getD, hik, ih h.2]

theorem hasKeyB_of_getD_ne {m : VMap} {k : Ident}
    (h : getD m k ≠ 0) : hasKeyB m k = true := by
  by_contra hfalse
  exact h (getD_eq_zero_of_hasKeyB_false (by simpa using hfalse))

theorem mem_of_hasKeyB {m : VMap} {k : Ident}
    (h : hasKeyB m k = true) : (k, getD m k) ∈ m := by
  induction m with
  | nil => simp [hasKeyB] at h
  | cons p rest ih =>
    obtain ⟨i, v⟩ := p
    by_cases hik : i = k
    · subst hik
      simp [getD]
    · simp only [hasKeyB, Bool.or_eq_true, decide_eq_true_eq] at h
      rcases h with h | h
      · exact absurd h hik
      · have hrw : getD ((i, v) :: rest) k = getD rest k := by simp [getD, hik]
        rw [hrw]
        exact List.mem_cons_of_mem _ (ih h)

theorem getD_of_mem {m : VMap} {k : Ident} {v : Nat}
    (hwf : WF m) (h : (k, v) ∈ m) : getD m k = v := by
  induction m with
  | nil => simp at h
  | cons p rest ih =>
    obtain ⟨i, w⟩ := p
    simp only [WF, keysOf, List.map_cons, List.nodup_cons] at hwf
    rcases List.mem_cons.mp h with h | h
    · cases h
      simp [getD]
    · have hik : i ≠ k := by
        intro hc
        subst hc
        exact hwf.1 (List.mem_map.mpr ⟨(i, v), h, rfl⟩)
      simpa [getD, hik] using ih hwf.2 h

theorem getD_append {m l : VMap} {k : Ident} :
    getD (m ++ l) k = if hasKeyB m k then getD m k else getD l k := by
  induction m with
  | nil => simp [getD, hasKeyB]
  | cons p rest ih =>
    obtain ⟨i, v⟩ := p
    by_cases hik : i = k <;> simp [getD, hasKeyB, hik, ih]

theorem hasKeyB_append {m l : VMap} {k : Ident} :
    hasKeyB (m ++ l) k = (hasKeyB m k || hasKeyB l k) := by
  induction m with
  | nil => simp [hasKeyB]
  | cons p rest ih =>
    obtain ⟨i, v⟩ := p
    by_cases hik : i = k <;> simp [hasKeyB, hik, ih]

theorem hasKeyB_updateEntry {m : VMap} {i k : Ident} {f : Nat → Nat} :
    hasKeyB (updateEntry m i f) k = hasKeyB m k := by
  induction m with
  | nil => rfl
  | cons p rest ih =>
    obtain ⟨j, v⟩ := p
    by_cases hji : j = i <;> simp [updateEntry, hasKeyB, hji, ih]

theorem getD_updateEntry_self {m : VMap} {i : Ident} {f : Nat → Nat}
    (h : hasKeyB m i = true) : getD (updateEntry m i f) i = f (getD m i) := by
  induction m with
  | nil => simp [hasKeyB] at h
  | cons p rest ih =>
    obtain ⟨j, v⟩ := p
    by_cases hji : j = i
    · subst hji
      simp [updateEntry, getD]
    · simp only [hasKeyB, Bool.or_eq_true, decide_eq_true_eq] at h
      rcases h with h | h
      · exact absurd h hji
      · simp [updateEntry, getD, hji, ih h]

theorem getD_updateEntry_ne {m : VMap} {i k : Ident} {f : Nat → Nat}
    (h : i ≠ k) : getD (updateEntry m i f) k = getD m k := by
  induction m with
  | nil => rfl
  | cons p rest ih =>
    obtain ⟨j, v⟩ := p
    by_cases hji : j = i
    · have hjk : j ≠ k := fun hc => h (hji.symm.trans hc)
      simp [updateEntry, getD, hji, hjk, ih, h]
    · simp [updateEntry, getD, hji, ih]

theorem hasKeyB_entryOrInsert {m : VMap} {i k : Ident} :
    hasKeyB (entryOrInsert m i) k = (hasKeyB m k || decide (i = k)) := by
  unfold entryOrInsert
  by_cases hmi : hasKeyB m i = true
  · by_cases hik : i = k
    · subst hik
      simp [hmi]
    · simp [hmi, hik]
  · simp only [Bool.not_eq_true] at hmi
    simp [hmi, hasKeyB_append, hasKeyB]

theorem getD_entryOrInsert {m : VMap} {i k : Ident} :
    getD (entryOrInsert m i) k = getD m k := by
  unfold entryOrInsert
  by_cases hmi : hasKeyB m i = true
  · simp [hmi]
  · simp only [Bool.not_eq_true] at hmi
    simp only [hmi, Bool.false_eq_true, if_false, getD_append]
    by_cases hmk : hasKeyB m k = true
    · simp [hmk]
    · simp only [Bool.not_eq_true] at hmk
      have hzero : getD m k = 0 := getD_eq_zero_of_hasKeyB_false hmk
      by_cases hik : i = k <;> simp [hmk, getD, hik, hzero]

theorem hasKeyB_entryOrInsert_self {m : VMap} {i : Ident} :
    hasKeyB (entryOrInsert m i) i = true := by
  simp [hasKeyB_entryOrInsert]

/-! Lemmas about `mergeEntry` and `merge`. -/

theorem getD_mergeEntry_self {m : VMap} {i : Ident} {c : Nat} :
    getD (VClock.mergeEntry m i c) i = Nat.max (getD m i) c := by
  unfold VClock.mergeEntry
  rw [getD_updateEntry_self hasKeyB_entryOrInsert_self, getD_entryOrInsert]

theorem getD_mergeEntry_ne {m : VMap} {i k : Ident} {c : Nat} (h : i ≠ k) :
    getD (VClock.mergeEntry m i c) k = getD m k := by
  unfold VClock.mergeEntry
  rw [getD_updateEntry_ne h, getD_entryOrInsert]

theorem hasKeyB_mergeEntry {m : VMap} {i k : Ident} {c : Nat} :
    hasKeyB (VClock.mergeEntry m i c) k = (hasKeyB m k || decide (i = k)) := by
  unfold VClock.mergeEntry
  rw [hasKeyB_updateEntry, hasKeyB_entryOrInsert]

theorem getD_merge_all (b : VMap) :
    ∀ a : VMap, WF b → ∀ k, getD (VClock.merge a b) k = Nat.max (getD a k) (getD b k) := by
  induction b with
  | nil =>
    intro a _ k
    simp [VClock.merge, getD]
  | cons p rest ih =>
    intro a hwf k
    obtain ⟨i, c⟩ := p
    simp only [WF, keysOf, List.map_cons, List.nodup_cons] at hwf
    have hstep : VClock.merge a ((i, c) :: rest) = VClock.merge (VClock.mergeEntry a i c) rest := rfl
    rw [hstep, ih (VClock.mergeEntry a i c) hwf.2 k]
    by_cases hik : i = k
    · subst hik
      have hrest : getD rest i = 0 := by
        apply getD_eq_zero_of_hasKeyB_false
        cases hc : hasKeyB rest i
        · rfl
        · exact absurd (hasKeyB_iff_mem.mp hc) hwf.1
      rw [getD_mergeEntry_self, hrest]
      simp [getD, Nat.max_assoc]
    · rw [getD_mergeEntry_ne hik]
      simp [getD, hik]

theorem getD_merge {a b : VMap} (hwf : WF b) (k : Ident) :
    getD (VClock.merge a b) k = Nat.max (getD a k) (getD b k) :=
  getD_merge_all b a hwf k

theorem hasKeyB_merge_all (b : VMap) :
    ∀ a k, hasKeyB (VClock.merge a b) k = (hasKeyB a k || hasKeyB b k) := by
  induction b with
  | nil =>
    intro a k
    simp [VClock.merge, hasKeyB]
  | cons p rest ih =>
    intro a k
    obtain ⟨i, c⟩ := p
    have hstep : VClock.merge a ((i, c) :: rest) = VClock.merge (VClock.mergeEntry a i c) rest := rfl
    rw [hstep, ih, hasKeyB_mergeEntry]
    simp [hasKeyB, Bool.or_assoc]

theorem hasKeyB_merge {a b : VMap} (k : Ident) :
    hasKeyB (VClock.merge a b) k = (hasKeyB a k || hasKeyB b k) :=
  hasKeyB_merge_all b a k

/-! Characterization of the comparison flags. -/

theorem lessFlag_iff {a b : VMap} :
    lessFlag a b = true ↔ ∃ k, getD a k < getD b k := by
  unfold lessFlag
  rw [List.any_eq_true]
  constructor
  · rintro ⟨k, _, hk⟩
    exact ⟨k, of_decide_eq_true hk⟩
  · rintro ⟨k, hk⟩
    refine ⟨k, ?_, decide_eq_true hk⟩
    have hne : getD b k ≠ 0 := by omega
    exact List.mem_append.mpr (Or.inr (hasKeyB_iff_mem.mp (hasKeyB_of_getD_ne hne)))

theorem greaterFlag_iff {a b : VMap} :
    greaterFlag a b = true ↔ ∃ k, getD b k < getD a k := by
  unfold greaterFlag
  rw [List.any_eq_true]
  constructor
  · rintro ⟨k, _, hk⟩
    exact ⟨k, of_decide_eq_true hk⟩
  · rintro ⟨k, hk⟩
    refine ⟨k, ?_, decide_eq_true hk⟩
    have hne : getD a k ≠ 0 := by omega
    exact List.mem_append.mpr (Or.inl (hasKeyB_iff_mem.mp (hasKeyB_of_getD_ne hne)))

theorem vclockCmp_eq_lt_iff {a b : VMap} :
    vclockCmp a b = some Ordering.lt ↔
      (∃ k, getD a k < getD b k) ∧ ∀ k, getD a k ≤ getD b k := by
  constructor
  · intro h
    have h1 : lessFlag a b = true := by
      by_contra hc
      simp only [Bool.not_eq_true] at hc
      cases h2 : greaterFlag a b <;> simp [vclockCmp, hc, h2] at h
    have h2 : greaterFlag a b = false := by
      by_contra hc
      simp only [Bool.not_eq_false] at hc
      simp [vclockCmp, h1, hc] at h
    refine ⟨lessFlag_iff.mp h1, fun k => ?_⟩
    by_contra hc
    have hgt : greaterFlag a b = true := greaterFlag_iff.mpr ⟨k, by omega⟩
    rw [h2] at hgt
    exact absurd hgt (by simp)
  · rintro ⟨hex, hall⟩
    have h1 : lessFlag a b = true := lessFlag_iff.mpr hex
    have h2 : greaterFlag a b = false := by
      cases hgf : greaterFlag a b
      · rfl
      · obtain ⟨k, hk⟩ := greaterFlag_iff.mp hgf
        exact absurd (hall k) (by omega)
    simp [vclockCmp, h1, h2]

theorem vclockCmp_self (a : VMap) : vclockCmp a a = some Ordering.eq := by
  have h1 : lessFlag a a = false := by
    cases h : lessFlag a a
    · rfl
    · obtain ⟨k, hk⟩ := lessFlag_iff.mp h
      omega
  have h2 : greaterFlag a a = false := by
    cases h : greaterFlag a a
    · rfl
    · obtain ⟨k, hk⟩ := greaterFlag_iff.mp h
      omega
  simp [vclockCmp, h1, h2]

theorem lessFlag_congr {a a' b b' : VMap} (ha : ∀ k, getD a' k = getD a k)
    (hb : ∀ k, getD b' k = getD b k) : lessFlag a' b' = lessFlag a b := by
  cases h1 : lessFlag a' b' <;> cases h2 : lessFlag a b <;> try rfl
  · obtain ⟨k, hk⟩ := lessFlag_iff.mp h2
    have : lessFlag a' b' = true := lessFlag_iff.mpr ⟨k, by rw [ha k, hb k]; exact hk⟩
    rw [h1] at this
    exact absurd this (by simp)
  · obtain ⟨k, hk⟩ := lessFlag_iff.mp h1
    rw [ha k, hb k] at hk
    have : lessFlag a b = true := lessFlag_iff.mpr ⟨k, hk⟩
    rw [h2] at this
    exact absurd this (by simp)

theorem greaterFlag_congr {a a' b b' : VMap} (ha : ∀ k, getD a' k = getD a k)
    (hb : ∀ k, getD b' k = getD b k) : greaterFlag a' b' = greaterFlag a b := by
  cases h1 : greaterFlag a' b' <;> cases h2 : greaterFlag a b <;> try rfl
  · obtain ⟨k, hk⟩ := greaterFlag_iff.mp h2
    have : greaterFlag a' b' = true := greaterFlag_iff.mpr ⟨k, by rw [ha k, hb k]; exact hk⟩
    rw [h1] at this
    exact absurd this (by simp)
  · obtain ⟨k, hk⟩ := greaterFlag_iff.mp h1
    rw [ha k, hb k] at hk
    have : greaterFlag a b = true := greaterFlag_iff.mpr ⟨k, hk⟩
    rw [h2] at this
    exact absurd this (by simp)

theorem vclockCmp_congr {a a' b b' : VMap} (ha : ∀ k, getD a' k = getD a k)
    (hb : ∀ k, getD b' k = getD b k) : vclockCmp a' b' = vclockCmp a b := by
  unfold vclockCmp
  rw [lessFlag_congr ha hb, greaterFlag_congr ha hb]

/-! Characterization of `happened_before`. -/

theorem happened_before_iff {a b : VMap} (ha : WF a) (hb : WF b) :
    VClock.happened_before a b = true ↔
      (∀ k, getD a k ≤ getD b k) ∧ ∃ k, getD a k < getD b k := by
  unfold VClock.happened_before
  have hA1 : (a.any fun p => decide (getD b p.1 < p.2)) = true ↔
      ∃ k, getD b k < getD a k := by
    rw [List.any_eq_true]
    constructor
    · rintro ⟨⟨k, v⟩, hp, hlt⟩
      have hval : getD a k = v := getD_of_mem ha hp
      exact ⟨k, by rw [hval]; exact of_decide_eq_true hlt⟩
    · rintro ⟨k, hk⟩
      have hne : getD a k ≠ 0 := by omega
      exact ⟨(k, getD a k), mem_of_hasKeyB (hasKeyB_of_getD_ne hne), decide_eq_true hk⟩
  have hA2 : ((a.any fun p => decide (p.2 < getD b p.1))
      || (b.any fun p => decide (getD a p.1 < p.2))) = true ↔
      ∃ k, getD a k < getD b k := by
    rw [Bool.or_eq_true, List.any_eq_true, List.any_eq_true]
    constructor
    · rintro (⟨⟨k, v⟩, hp, hlt⟩ | ⟨⟨k, v⟩, hp, hlt⟩)
      · have hval : getD a k = v := getD_of_mem ha hp
        exact ⟨k, by rw [hval]; exact of_decide_eq_true hlt⟩
      · have hval : getD b k = v := getD_of_mem hb hp
        exact ⟨k, by rw [hval]; exact of_decide_eq_true hlt⟩
    · rintro ⟨k, hk⟩
      have hne : getD b k ≠ 0 := by omega
      exact Or.inr ⟨(k, getD b k), mem_of_hasKeyB (hasKeyB_of_getD_ne hne), decide_eq_true hk⟩
  cases h1 : (a.any fun p => decide (getD b p.1 < p.2))
  · simp only [Bool.false_eq_true, if_false]
    have hall : ∀ k, getD a k ≤ getD b k := by
      intro k
      by_contra hc
      have : (a.any fun p => decide (getD b p.1 < p.2)) = true := hA1.mpr ⟨k, by omega⟩
      rw [h1] at this
      exact absurd this (by simp)
    rw [hA2]
    exact ⟨fun hex => ⟨hall, hex⟩, fun h => h.2⟩
  · simp only [if_true]
    constructor
    · intro h
      exact absurd h (by simp)
    · rintro ⟨hall, -⟩
      obtain ⟨k, hk⟩ := hA1.mp h1
      exact absurd (hall k) (by omega)

/-! Lemmas about zero-seeding. -/

theorem getD_append_zero {m : VMap} {i k : Ident} :
    getD (m ++ [(i, 0)]) k = getD m k := by
  rw [getD_append]
  by_cases h : hasKeyB m k = true
  · simp [h]
  · simp only [Bool.not_eq_true] at h
    rw [h]
    simp only [Bool.false_eq_true, if_false]
    rw [getD_eq_zero_of_hasKeyB_false h]
    by_cases hik : i = k <;> simp [getD, hik]

theorem getD_extendZeros_all (S : List Ident) :
    ∀ (m : VMap) (k : Ident), getD (extendZeros m S) k = getD m k := by
  induction S with
  | nil => intro m k; rfl
  | cons i rest ih =>
    intro m k
    have hstep : extendZeros m (i :: rest)
        = extendZeros (if hasKeyB m i then m else m ++ [(i, 0)]) rest := rfl
    rw [hstep]
    by_cases h : hasKeyB m i = true
    · simp only [h, if_true]
      exact ih m k
    · simp only [Bool.not_eq_true] at h
      rw [h]
      simp only [Bool.false_eq_true, if_false]
      rw [ih (m ++ [(i, 0)]) k, getD_append_zero]

theorem hasKeyB_extendZeros_mono (S : List Ident) :
    ∀ (m : VMap) (k : Ident), hasKeyB m k = true → hasKeyB (extendZeros m S) k = true := by
  induction S with
  | nil => intro m k h; exact h
  | cons i rest ih =>
    intro m k h
    have hstep : extendZeros m (i :: rest)
        = extendZeros (if hasKeyB m i then m else m ++ [(i, 0)]) rest := rfl
    rw [hstep]
    by_cases hmi : hasKeyB m i = true
    · simp only [hmi, if_true]
      exact ih m k h
    · simp only [Bool.not_eq_true] at hmi
      rw [hmi]
      simp only [Bool.false_eq_true, if_false]
      exact ih _ k (by rw [hasKeyB_append, h]; rfl)

theorem hasKeyB_extendZeros_of_mem (S : List Ident) :
    ∀ (m : VMap) (k : Ident), k ∈ S → hasKeyB (extendZeros m S) k = true := by
  induction S with
  | nil => intro m k h; simp at h
  | cons i rest ih =>
    intro m k h
    have hstep : extendZeros m (i :: rest)
        = extendZeros (if hasKeyB m i then m else m ++ [(i, 0)]) rest := rfl
    rw [hstep]
    rcases List.mem_cons.mp h with h | h
    · subst h
      apply hasKeyB_extendZeros_mono
      by_cases hmk : hasKeyB m k = true
      · simp [hmk]
      · simp only [Bool.not_eq_true] at hmk
        rw [hmk]
        simp only [Bool.false_eq_true, if_false]
        rw [hasKeyB_append, hmk]
        simp [hasKeyB]
    · exact ih _ k h

/-! Lemmas about `increment`. -/

theorem getD_increment_self {m : VMap} {id : Ident} :
    getD (VClock.increment m id) id = (getD m id + 1) % U64 := by
  unfold VClock.increment
  rw [getD_updateEntry_self hasKeyB_entryOrInsert_self, getD_entryOrInsert]

theorem getD_increment_ne {m : VMap} {id k : Ident} (h : id ≠ k) :
    getD (VClock.increment m id) k = getD m k := by
  unfold VClock.increment
  rw [getD_updateEntry_ne h, getD_entryOrInsert]

theorem hasKeyB_increment {m : VMap} {id k : Ident} :
    hasKeyB (VClock.increment m id) k = (hasKeyB m k || decide (id = k)) := by
  unfold VClock.increment
  rw [hasKeyB_updateEntry, hasKeyB_entryOrInsert]

/-! Sequences of mutating operations on a vector clock, for stating lifetime
invariants: a run is a list of local increments and merges. -/

inductive VOp where
  | inc : Ident → VOp
  | mer : VMap → VOp

/-- Apply one operation to the clock state. -/
def applyOp (m : VMap) : VOp → VMap
  | .inc id => VClock.increment m id
  | .mer o => VClock.merge m o

/-- Apply a whole run of operations in order. -/
def applyOps (m : VMap) (ops : List VOp) : VMap :=
  ops.foldl applyOp m

/-- An increment step does not overflow when the incremented entry sits
strictly below the `u64` maximum; merges never overflow. -/
def incOkB (m : VMap) : VOp → Bool
  | .inc id => decide (getD m id + 1 < U64)
  | .mer _ => true

/-- A run never wraps: at each increment step the touched entry is below
the `u64` maximum at that moment. -/
def noWrapRunB : VMap → List VOp → Bool
  | _, [] => true
  | m, op :: rest => incOkB m op && noWrapRunB (applyOp m op) rest

theorem getD_increment_le {m : VMap} {id k : Ident}
    (h : getD m id + 1 < U64) : getD m k ≤ getD (VClock.increment m id) k := by
  by_cases hik : id = k
  · subst hik
    rw [getD_increment_self, Nat.mod_eq_of_lt h]
    omega
  · rw [getD_increment_ne hik]

theorem getD_le_mergeEntry {m : VMap} {i k : Ident} {c : Nat} :
    getD m k ≤ getD (VClock.mergeEntry m i c) k := by
  by_cases hik : i = k
  · subst hik
    rw [getD_mergeEntry_self]
    exact Nat.le_max_left _ _
  · rw [getD_mergeEntry_ne hik]

theorem getD_le_merge_all (o : VMap) :
    ∀ (m : VMap) (k : Ident), getD m k ≤ getD (VClock.merge m o) k := by
  induction o with
  | nil => intro m k; exact Nat.le_refl _
  | cons p rest ih =>
    intro m k
    exact Nat.le_trans getD_le_mergeEntry (ih (VClock.mergeEntry m p.1 p.2) k)

/-! Well-typedness of the in-memory values: every counter is a `u64`. -/

/-- Well-typed scalar clock: the counter fits in a `u64`. -/
def WTclock (c : LamportClock) : Prop := c.counter < U64

/-- Well-typed Lamport time. -/
def WTtime (t : LamportTime) : Prop := t.counter < U64

/-- Well-typed vector-clock map: every stored counter fits in a `u64`. -/
def WTmap (m : VMap) : Prop := ∀ p ∈ m, p.2 < U64

instance (c : LamportClock) : Decidable (WTclock c) :=
  inferInstanceAs (Decidable (c.counter < U64))

instance (t : LamportTime) : Decidable (WTtime t) :=
  inferInstanceAs (Decidable (t.counter < U64))

instance (m : VMap) : Decidable (WTmap m) :=
  inferInstanceAs (Decidable (∀ p ∈ m, p.2 < U64))

theorem WTmap_updateEntry (i : Ident) (f : Nat → Nat) (hf : ∀ v, v < U64 → f v < U64) :
    ∀ m : VMap, WTmap m → WTmap (updateEntry m i f) := by
  intro m
  induction m with
  | nil => intro _ p hp; simp [updateEntry] at hp
  | cons q rest ih =>
    intro hm
    obtain ⟨j, v⟩ := q
    have hv : v < U64 := hm (j, v) (by simp)
    have hrest : WTmap rest := fun p hp => hm p (List.mem_cons_of_mem _ hp)
    intro p hp
    by_cases hji : j = i
    · rw [show updateEntry ((j, v) :: rest) i f
          = (j, f v) :: updateEntry rest i f by simp [updateEntry, hji]] at hp
      rcases List.mem_cons.mp hp with h | h
      · subst h
        exact hf v hv
      · exact ih hrest p h
    · rw [show updateEntry ((j, v) :: rest) i f
          = (j, v) :: updateEntry rest i f by simp [updateEntry, hji]] at hp
      rcases List.mem_cons.mp hp with h | h
      · subst h
        exact hv
      · exact ih hrest p h

theorem WTmap_append_zero {m : VMap} {i : Ident} (hm : WTmap m) :
    WTmap (m ++ [(i, 0)]) := by
  intro p hp
  rcases List.mem_append.mp hp with h | h
  · exact hm p h
  · simp only [List.mem_singleton] at h
    subst h
    simp [U64]

theorem WTmap_entryOrInsert {m : VMap} {i : Ident} (hm : WTmap m) :
    WTmap (entryOrInsert m i) := by
  unfold entryOrInsert
  by_cases h : hasKeyB m i = true
  · simpa [h] using hm
  · simp only [Bool.not_eq_true] at h
    rw [h]
    simpa using WTmap_append_zero hm

theorem WTmap_increment {m : VMap} {id : Ident} (hm : WTmap m) :
    WTmap (VClock.increment m id) := by
  unfold VClock.increment
  refine WTmap_updateEntry id _ (fun v _ => ?_) _ (WTmap_entryOrInsert hm)
  exact Nat.mod_lt _ (by norm_num [U64])

theorem WTmap_mergeEntry {m : VMap} {i : Ident} {c : Nat} (hm : WTmap m)
    (hc : c < U64) : WTmap (VClock.mergeEntry m i c) := by
  unfold VClock.mergeEntry
  refine WTmap_updateEntry i _ (fun v hv => ?_) _ (WTmap_entryOrInsert hm)
  exact Nat.max_lt.mpr ⟨hv, hc⟩

theorem WTmap_merge (o : VMap) :
    ∀ m : VMap, WTmap m → WTmap o → WTmap (VClock.merge m o) := by
  induction o with
  | nil => intro m hm _; exact hm
  | cons p rest ih =>
    intro m hm ho
    obtain ⟨i, c⟩ := p
    have hc : c < U64 := ho (i, c) (by simp)
    have hrest : WTmap rest := fun q hq => ho q (List.mem_cons_of_mem _ hq)
    exact ih (VClock.mergeEntry m i c) (WTmap_mergeEntry hm hc) hrest

/-! Big-endian serialization lemmas. -/

theorem length_natToBytesBE (w : Nat) : ∀ n : Nat, (LamportClock.natToBytesBE w n).length = w := by
  induction w with
  | zero => intro n; rfl
  | succ w ih => intro n; simp [LamportClock.natToBytesBE, ih]

theorem natFromBytesBE_append_single (l : List Nat) (b : Nat) :
    LamportClock.natFromBytesBE (l ++ [b]) = LamportClock.natFromBytesBE l * 256 + b := by
  unfold LamportClock.natFromBytesBE
  rw [List.foldl_append]
  rfl

theorem natFromBytesBE_natToBytesBE (w : Nat) :
    ∀ n : Nat, LamportClock.natFromBytesBE (LamportClock.natToBytesBE w n) = n % 256 ^ w := by
  induction w with
  | zero =>
    intro n
    simp [LamportClock.natToBytesBE, LamportClock.natFromBytesBE, Nat.mod_one]
  | succ w ih =>
    intro n
    rw [show LamportClock.natToBytesBE (w + 1) n
        = LamportClock.natToBytesBE w (n / 256) ++ [n % 256] from rfl]
    rw [natFromBytesBE_append_single, ih]
    have h256 : (256 : Nat) ^ (w + 1) = 256 * 256 ^ w := by ring
    rw [h256, Nat.mod_mul]
    ring

theorem natToBytesBE_roundtrip {n : Nat} (h : n < U64) :
    LamportClock.natFromBytesBE (LamportClock.natToBytesBE 8 n) = n := by
  rw [natFromBytesBE_natToBytesBE]
  have h8 : (256 : Nat) ^ 8 = U64 := by norm_num [U64]
  rw [h8, Nat.mod_eq_of_lt h]

/-! Correspondence between the derived comparison functions and the
spec-side lexicographic orders. -/

theorem bytesCmp_gt_iff (x : Ident) : ∀ y : Ident, bytesCmp x y = Ordering.gt ↔ lexLt y x := by
  induction x with
  | nil =>
    intro y
    cases y <;> simp [bytesCmp, lexLt]
  | cons a xs ih =>
    intro y
    cases y with
    | nil => simp [bytesCmp, lexLt]
    | cons b ys =>
      by_cases h1 : a < b
      · have hne : b ≠ a := by omega
        have hnl : ¬ b < a := by omega
        simp [bytesCmp, lexLt, h1, hne, hnl]
      · by_cases h2 : b < a
        · simp [bytesCmp, lexLt, h1, h2]
        · have hab : a = b := by omega
          subst hab
          simp [bytesCmp, lexLt, h1, h2, ih ys]

theorem ltimeCmp_gt_iff {x y : LamportTime} :
    ltimeCmp x y = Ordering.gt ↔ specGT x y := by
  unfold ltimeCmp natCmp specGT
  by_cases h1 : x.counter < y.counter
  · have hn1 : ¬ y.counter < x.counter := by omega
    have hn2 : y.counter ≠ x.counter := by omega
    simp [h1, hn1, hn2]
  · by_cases h2 : y.counter < x.counter
    · simp [h1, h2]
    · have heq : x.counter = y.counter := by omega
      simp [h1, h2, heq, bytesCmp_gt_iff x.owner y.owner]

theorem ltimeLe_false_iff {x y : LamportTime} :
    ltimeLe x y = false ↔ specGT x y := by
  unfold ltimeLe
  rw [← ltimeCmp_gt_iff]
  cases h : ltimeCmp x y <;> simp

theorem from_bytes_to_bytes_aux (cnt : Nat) (cid : Ident) (h : cnt < U64) :
    LamportClock.from_bytes (LamportClock.to_bytes ⟨cnt, cid⟩) = some ⟨cnt, cid⟩ := by
  unfold LamportClock.to_bytes LamportClock.from_bytes
  have hlen : (LamportClock.natToBytesBE 8 cnt).length = 8 := length_natToBytesBE 8 _
  rw [if_neg (by rw [List.length_append, hlen]; omega)]
  have htake : (LamportClock.natToBytesBE 8 cnt ++ cid).take 8
      = LamportClock.natToBytesBE 8 cnt := by
    rw [← hlen]
    exact List.take_left _ _
  have hdrop : (LamportClock.natToBytesBE 8 cnt ++ cid).drop 8 = cid := by
    rw [← hlen]
    exact List.drop_left _ _
  rw [htake, hdrop, natToBytesBE_roundtrip h]

/-! The claimed properties. -/

/-- Claim C1 (amended for `u64` wrap-around): after `compare(remote)` in
single-threaded use the counter equals `(remote.counter + 1) % 2^64` — which
is `remote.counter + 1` whenever `remote.counter` is below the `u64`
maximum — when the remote time strictly dominates the local one under the
total order (counter first, owner tie-break), and the clock is unchanged
otherwise; in particular a clock at counter 1 witnessing `LamportTime(10,
otherOwner)` ends at counter 11. -/
theorem compare_witness_postcondition (c : LamportClock) (r : LamportTime) :
    (specGT r c.time → (c.compare r).counter = (r.counter + 1) % U64) ∧
    (¬ specGT r c.time → c.compare r = c) ∧
    (∀ ownerL ownerR : Ident,
      (LamportClock.compare ⟨1, ownerL⟩ ⟨10, ownerR⟩).counter = 11) := by
  refine ⟨fun h => ?_, fun h => ?_, fun ownerL ownerR => ?_⟩
  · have hle : ltimeLe r c.time = false := ltimeLe_false_iff.mpr h
    unfold LamportClock.compare
    rw [hle]
    simp only [Bool.false_eq_true, if_false]
  · have hle : ltimeLe r c.time = true := by
      cases hlc : ltimeLe r c.time
      · exact absurd (ltimeLe_false_iff.mp hlc) h
      · rfl
    unfold LamportClock.compare
    rw [hle]
    simp only [if_true]
  · have hle : ltimeLe ⟨10, ownerR⟩ (LamportClock.time ⟨1, ownerL⟩) = false := by
      unfold ltimeLe ltimeCmp natCmp LamportClock.time
      norm_num
    unfold LamportClock.compare
    rw [hle]
    simp only [Bool.false_eq_true, if_false]
    norm_num [U64]

/-- Witness for C1 at a concrete input: a clock at counter 1 with owner
`[0]` witnessing `LamportTime(10, [1])` ends at counter 11. -/
theorem compare_witness_postcondition_concrete :
    specGT ⟨10, [1]⟩ (LamportClock.time ⟨1, [0]⟩) ∧
    (LamportClock.compare ⟨1, [0]⟩ ⟨10, [1]⟩).counter = (10 + 1) % U64 :=
  ⟨Or.inl (by decide),
    (compare_witness_postcondition ⟨1, [0]⟩ ⟨10, [1]⟩).1 (Or.inl (by decide))⟩

/-- Counterexample to C1 as stated: at the `u64` maximum the stored counter
is the wrapped `(remote.counter + 1) % 2^64 = 0`, not `remote.counter + 1`,
even though the remote time strictly dominates. -/
theorem compare_wraps_at_u64_max :
    specGT ⟨U64 - 1, [1]⟩ (LamportClock.time ⟨1, [0]⟩) ∧
    (LamportClock.compare ⟨1, [0]⟩ ⟨U64 - 1, [1]⟩).counter ≠ (U64 - 1) + 1 := by
  refine ⟨Or.inl (by decide), ?_⟩
  decide

/-- Claim C2: `happened_before(A, B)` is true exactly when the three-way
partial-order comparison of the snapshots yields `Less`, and it is false
whenever the comparison yields `Concurrent` or `Equal`. -/
theorem happened_before_refines_cmp (a b : VMap) (ha : WF a) (hb : WF b) :
    (VClock.happened_before a b = true ↔ vclockCmp a b = some Ordering.lt) ∧
    ((vclockCmp a b = none ∨ vclockCmp a b = some Ordering.eq) →
      VClock.happened_before a b = false) := by
  have hiff : VClock.happened_before a b = true ↔ vclockCmp a b = some Ordering.lt := by
    rw [happened_before_iff ha hb, vclockCmp_eq_lt_iff]
    exact and_comm
  refine ⟨hiff, fun hor => ?_⟩
  cases hhb : VClock.happened_before a b
  · rfl
  · have hlt := hiff.mp hhb
    rcases hor with h | h <;> rw [h] at hlt <;> exact absurd hlt (by simp)

/-- Witness for C2 at concrete well-formed clocks. -/
theorem happened_before_refines_cmp_concrete :
    WF ([([0], 1)] : VMap) ∧ WF ([([0], 2)] : VMap) ∧
    (VClock.happened_before [([0], 1)] [([0], 2)] = true ↔
      vclockCmp [([0], 1)] [([0], 2)] = some Ordering.lt) :=
  ⟨by decide, by decide,
    (happened_before_refines_cmp [([0], 1)] [([0], 2)] (by decide) (by decide)).1⟩

/-- Claim C3: merge is commutative up to resulting map content and
idempotent — merging `b` into `a` and `a` into `b` give extensionally equal
maps, and merging the same clock twice equals merging it once. -/
theorem merge_comm_and_idem (a b : VMap) (ha : WF a) (hb : WF b) :
    MapEq (VClock.merge a b) (VClock.merge b a) ∧
    MapEq (VClock.merge (VClock.merge a b) b) (VClock.merge a b) := by
  refine ⟨⟨fun k => ?_, fun k => ?_⟩, ⟨fun k => ?_, fun k => ?_⟩⟩
  · rw [hasKeyB_merge, hasKeyB_merge, Bool.or_comm]
  · rw [getD_merge hb, getD_merge ha]
    exact Nat.max_comm _ _
  · rw [hasKeyB_merge, hasKeyB_merge]
    cases hasKeyB a k <;> cases hasKeyB b k <;> rfl
  · rw [getD_merge hb, getD_merge hb]
    exact (Nat.max_assoc _ _ _).trans (congrArg _ (Nat.max_self _))

/-- Witness for C3 at concrete well-formed clocks. -/
theorem merge_comm_and_idem_concrete :
    WF ([([0], 1)] : VMap) ∧ WF ([([1], 2)] : VMap) ∧
    (MapEq (VClock.merge [([0], 1)] [([1], 2)]) (VClock.merge [([1], 2)] [([0], 1)]) ∧
      MapEq (VClock.merge (VClock.merge [([0], 1)] [([1], 2)]) [([1], 2)])
        (VClock.merge [([0], 1)] [([1], 2)])) :=
  ⟨by decide, by decide,
    merge_comm_and_idem [([0], 1)] [([1], 2)] (by decide) (by decide)⟩

/-- Claim C4 (amended for `u64` wrap-around): along any run of increment
and merge operations in which no increment touches an entry sitting at the
`u64` maximum, every entry value is non-decreasing; merges never decrease
an entry under any circumstance. -/
theorem vclock_entries_monotone (ops : List VOp) :
    ∀ (m : VMap) (k : Ident), noWrapRunB m ops = true →
      getD m k ≤ getD (applyOps m ops) k := by
  induction ops with
  | nil =>
    intro m k _
    exact Nat.le_refl _
  | cons op rest ih =>
    intro m k h
    rw [show noWrapRunB m (op :: rest)
        = (incOkB m op && noWrapRunB (applyOp m op) rest) from rfl,
      Bool.and_eq_true] at h
    have hstep : getD m k ≤ getD (applyOp m op) k := by
      cases op with
      | inc id =>
        have hok := h.1
        simp only [incOkB, decide_eq_true_eq] at hok
        exact getD_increment_le hok
      | mer o => exact getD_le_merge_all o m k
    exact Nat.le_trans hstep (ih (applyOp m op) k h.2)

/-- Witness for C4 at a concrete run: an increment then a merge, starting
below the `u64` maximum, never decreases the tracked entry. -/
theorem vclock_entries_monotone_concrete :
    noWrapRunB [(([0] : Ident), 1)] [VOp.inc [0], VOp.mer [([1], 5)]] = true ∧
    getD [(([0] : Ident), 1)] [0]
      ≤ getD (applyOps [(([0] : Ident), 1)] [VOp.inc [0], VOp.mer [([1], 5)]]) [0] :=
  ⟨by decide, vclock_entries_monotone [VOp.inc [0], VOp.mer [([1], 5)]]
    [(([0] : Ident), 1)] [0] (by decide)⟩

/-- Counterexample to C4 as stated: incrementing an entry at the `u64`
maximum wraps it to 0, a strict decrease. -/
theorem vclock_increment_wraps_at_u64_max :
    getD (applyOps [(([] : Ident), U64 - 1)] [VOp.inc []]) []
      < getD [(([] : Ident), U64 - 1)] [] := by
  decide

/-- Claim C5: `happened_before(A, B)` and `happened_before(B, A)` are never
both true, and the three-way comparison of any snapshot with itself is
`Equal`. -/
theorem happened_before_antisymm (a b : VMap) (ha : WF a) (hb : WF b) :
    ¬ (VClock.happened_before a b = true ∧ VClock.happened_before b a = true) ∧
    vclockCmp a a = some Ordering.eq := by
  refine ⟨fun hcon => ?_, vclockCmp_self a⟩
  obtain ⟨hall1, hex1⟩ := (happened_before_iff ha hb).mp hcon.1
  obtain ⟨hall2, hex2⟩ := (happened_before_iff hb ha).mp hcon.2
  obtain ⟨k, hk⟩ := hex1
  exact absurd (hall2 k) (by omega)

/-- Witness for C5 at concrete well-formed clocks. -/
theorem happened_before_antisymm_concrete :
    WF ([([0], 2)] : VMap) ∧ WF ([([1], 1)] : VMap) ∧
    (¬ (VClock.happened_before [([0], 2)] [([1], 1)] = true ∧
        VClock.happened_before [([1], 1)] [([0], 2)] = true) ∧
      vclockCmp [([0], 2)] [([0], 2)] = some Ordering.eq) :=
  ⟨by decide, by decide,
    happened_before_antisymm [([0], 2)] [([1], 1)] (by decide) (by decide)⟩

/-- Claim C6: zero-valued entries are transparent to the partial-order
comparison — a snapshot compares `Equal` to itself extended with zero
entries, extending either argument with zero entries never changes any
comparison result, and the extension is visible to strict map equality
through key membership. -/
theorem zero_entries_transparent (a : VMap) (S : List Ident) :
    vclockCmp a (extendZeros a S) = some Ordering.eq ∧
    (∀ b, vclockCmp (extendZeros a S) b = vclockCmp a b ∧
      vclockCmp b (extendZeros a S) = vclockCmp b a) ∧
    (∀ id, id ∈ S → hasKeyB (extendZeros a S) id = true) := by
  have hget : ∀ k, getD (extendZeros a S) k = getD a k := getD_extendZeros_all S a
  refine ⟨?_, fun b => ⟨?_, ?_⟩, fun id hid => ?_⟩
  · rw [vclockCmp_congr (fun _ => rfl) hget, vclockCmp_self]
  · exact vclockCmp_congr hget (fun _ => rfl)
  · exact vclockCmp_congr (fun _ => rfl) hget
  · exact hasKeyB_extendZeros_of_mem S a id hid

/-- Witness for C6 at a concrete snapshot and seed set. -/
theorem zero_entries_transparent_concrete :
    vclockCmp [(([0] : Ident), 3)] (extendZeros [(([0] : Ident), 3)] [[1]])
      = some Ordering.eq ∧
    hasKeyB (extendZeros [(([0] : Ident), 3)] [[1]]) [1] = true ∧
    hasKeyB [(([0] : Ident), 3)] [1] = false :=
  ⟨(zero_entries_transparent [(([0] : Ident), 3)] [[1]]).1,
    (zero_entries_transparent [(([0] : Ident), 3)] [[1]]).2.2 [1] (by decide),
    by decide⟩

/-- Claim C7: scalar-clock serialization round-trips exactly — for every
well-typed clock state, decoding the encoded bytes succeeds and returns the
same counter and the same owner bytes. -/
theorem scalar_encode_decode_roundtrip (c : LamportClock) (h : c.counter < U64) :
    LamportClock.from_bytes (LamportClock.to_bytes c) = some c := by
  obtain ⟨cnt, cid⟩ := c
  exact from_bytes_to_bytes_aux cnt cid h

/-- Witness for C7 at a concrete clock state. -/
theorem scalar_encode_decode_roundtrip_concrete :
    (⟨5, [7, 9]⟩ : LamportClock).counter < U64 ∧
    LamportClock.from_bytes (LamportClock.to_bytes ⟨5, [7, 9]⟩) = some ⟨5, [7, 9]⟩ :=
  ⟨by decide, scalar_encode_decode_roundtrip ⟨5, [7, 9]⟩ (by decide)⟩

/-- Claim C8: decode fails exactly on inputs shorter than 8 bytes; on any
longer input it succeeds, reading the first 8 bytes as a big-endian counter
and accepting the remaining byte suffix verbatim as the owner. -/
theorem from_bytes_short_input (d : List Nat) :
    (LamportClock.from_bytes d = none ↔ d.length < 8) ∧
    (8 ≤ d.length → LamportClock.from_bytes d
      = some ⟨LamportClock.natFromBytesBE (d.take 8), d.drop 8⟩) := by
  constructor
  · unfold LamportClock.from_bytes
    by_cases h : d.length < 8 <;> simp [h]
  · intro h
    unfold LamportClock.from_bytes
    rw [if_neg (by omega)]

/-- Witness for C8 at a concrete 9-byte input. -/
theorem from_bytes_short_input_concrete :
    8 ≤ ([1, 2, 3, 4, 5, 6, 7, 8, 9] : List Nat).length ∧
    LamportClock.from_bytes [1, 2, 3, 4, 5, 6, 7, 8, 9]
      = some ⟨LamportClock.natFromBytesBE (([1, 2, 3, 4, 5, 6, 7, 8, 9] : List Nat).take 8),
          ([1, 2, 3, 4, 5, 6, 7, 8, 9] : List Nat).drop 8⟩ :=
  ⟨by decide, (from_bytes_short_input [1, 2, 3, 4, 5, 6, 7, 8, 9]).2 (by decide)⟩

/-- Claim C9: the mutating and comparing operations are total over
well-typed in-memory values — they always produce a well-typed result
(counters stay inside `u64`, with wrapping at the boundary), and the
comparison always returns one of its four answers. -/
theorem clock_ops_total (c : LamportClock) (t : LamportTime) (m o a b : VMap) (id : Ident)
    (hc : WTclock c) (hm : WTmap m) (ho : WTmap o) :
    WTclock (c.increment).1 ∧ WTtime (c.increment).2 ∧
    WTclock (c.compare t) ∧
    WTmap (VClock.increment m id) ∧
    WTmap (VClock.merge m o) ∧
    (vclockCmp a b = some Ordering.lt ∨ vclockCmp a b = some Ordering.gt ∨
      vclockCmp a b = some Ordering.eq ∨ vclockCmp a b = none) := by
  refine ⟨?_, ?_, ?_, WTmap_increment hm, WTmap_merge o m hm ho, ?_⟩
  · exact Nat.mod_lt _ (by norm_num [U64])
  · exact Nat.mod_lt _ (by norm_num [U64])
  · unfold LamportClock.compare
    by_cases h : ltimeLe t c.time = true
    · rw [if_pos h]
      exact hc
    · rw [if_neg h]
      exact Nat.mod_lt _ (by norm_num [U64])
  · unfold vclockCmp
    cases lessFlag a b <;> cases greaterFlag a b <;> simp

/-- Witness for C9 at concrete well-typed values, including a counter at
the `u64` maximum. -/
theorem clock_ops_total_concrete :
    WTclock (⟨U64 - 1, [0]⟩ : LamportClock) ∧
    WTmap ([(([0] : Ident), U64 - 1)] : VMap) ∧ WTmap ([(([1] : Ident), 4)] : VMap) ∧
    WTclock ((⟨U64 - 1, [0]⟩ : LamportClock).compare ⟨U64 - 1, [1]⟩) ∧
    WTmap (VClock.merge [(([0] : Ident), U64 - 1)] [(([1] : Ident), 4)]) :=
  ⟨by decide, by decide, by decide,
    (clock_ops_total ⟨U64 - 1, [0]⟩ ⟨U64 - 1, [1]⟩ [(([0] : Ident), U64 - 1)]
      [(([1] : Ident), 4)] [] [] [2] (by decide) (by decide) (by decide)).2.2.1,
    (clock_ops_total ⟨U64 - 1, [0]⟩ ⟨U64 - 1, [1]⟩ [(([0] : Ident), U64 - 1)]
      [(([1] : Ident), 4)] [] [] [2] (by decide) (by decide) (by decide)).2.2.2.2.1⟩

/-- Claim C10: after `a.merge(b)` the key set is the union of the prior key
sets — every key of `b` becomes present, zero-valued entries included, and
no key is removed; consequently a merge can change the strict map-equality
class of `a` without changing how its snapshot compares to others. -/
theorem merge_key_union (a b : VMap) :
    (∀ k, hasKeyB (VClock.merge a b) k = (hasKeyB a k || hasKeyB b k)) ∧
    (hasKeyB (VClock.merge [([0], 1)] [([1], 0)]) [1] = true ∧
      hasKeyB ([([0], 1)] : VMap) [1] = false ∧
      ∀ x : VMap, vclockCmp (VClock.merge [([0], 1)] [([1], 0)]) x
          = vclockCmp [([0], 1)] x ∧
        vclockCmp x (VClock.merge [([0], 1)] [([1], 0)])
          = vclockCmp x [([0], 1)]) := by
  have hm : VClock.merge ([([0], 1)] : VMap) ([([1], 0)] : VMap)
      = [([0], 1), ([1], 0)] := by decide
  have hget : ∀ k, getD ([([0], 1), ([1], 0)] : VMap) k = getD ([([0], 1)] : VMap) k := by
    intro k
    by_cases h0 : ([0] : Ident) = k
    · simp [getD, h0]
    · by_cases h1 : ([1] : Ident) = k <;> simp [getD, h0, h1]
  refine ⟨fun k => hasKeyB_merge k, by rw [hm]; decide, by decide, fun x => ⟨?_, ?_⟩⟩
  · rw [hm]
    exact vclockCmp_congr hget (fun _ => rfl)
  · rw [hm]
    exact vclockCmp_congr (fun _ => rfl) hget

example : VClock.increment [] [0] = [([0], 1)] := by decide
example : VClock.merge [([0], 2)] [([1], 1)] = [([0], 2), ([1], 1)] := by decide
example : VClock.happened_before [([0], 1)] [([0], 2)] = true := by decide
example : vclockCmp [([0], 1)] [([1], 1)] = none := by decide
example : LamportClock.compare ⟨1, []⟩ ⟨10, [1]⟩ = ⟨11, []⟩ := by decide
example : LamportClock.from_bytes (LamportClock.to_bytes ⟨5, [7, 9]⟩) = some ⟨5, [7, 9]⟩ := by decide

end LogicalClocks
